import Mathlib

/-!
Verification of the sidenote layout engine of src/js/sidenotes.js.

The engine operates on purely numeric, one-dimensional geometry: each
sidenote has a fixed anchor offset (the vertical position of its footnote
reference relative to its column), a fixed rendered height, and a mutable
top offset (style.top); each column has a fixed clientHeight and offsetTop;
the page contributes a list of proscribed vertical ranges (obstacles).
We embed this geometry with exact integer pixel coordinates (the DOM
offsetTop/clientHeight values the engine reads back are whole pixels, and
on such inputs every operation the engine performs stays integral and is
exact in float arithmetic).  The single halving the engine performs, the
halfwayPoint comparison of lines 419-429, compares (top + bottom) / 2
against (footprint.top + footprint.bottom) / 2; we embed it by comparing
the two doubled quantities, which is exactly equivalent.  style.top string
round-trips (parseInt of a value previously written) are the identity on
these values, and Math.round on an integral value is the identity.

DOM structure is embedded as an Arrangement: the left column, right column
and the hidden sidenote storage are lists of sidenote indices (document
children in order).  appendChild and insertBefore move a node: remove it
from its current parent, then insert.
-/

namespace Sidenotes

/-- A sidenote column side.  In the source the columns are the DOM elements
sidenoteColumnLeft and sidenoteColumnRight. -/
inductive Side
  | left
  | right
deriving DecidableEq, Repr

/-- A proscribed vertical range (obstacle): an interval that sidenotes must
not overlap, in coordinates relative to the right column's bounding rect
(sidenotes.js lines 363-379). -/
structure PRange where
  top : ℤ
  bottom : ℤ
deriving DecidableEq, Repr

/-- Static per-sidenote geometry for one layout run: anchorOffset is the
footnote reference's bounding-rect top minus its column's bounding-rect top
(the quantity used at line 352); height is the sidenote's clientHeight;
collapsed records whether the footnote reference is within a
currently-collapsed collapse block (the result of isWithinCollapsedBlock
at line 186). -/
structure Note where
  anchorOffset : ℤ
  height : ℤ
  collapsed : Bool
deriving DecidableEq, Repr

/-- Fixed page geometry for one layout run: the ordered footnote list and
the columns' clientHeight and offsetTop, plus the proscribed ranges
collected from potentially overlapping elements (lines 363-373; the bottom
sentinel of lines 376-379 is appended separately). -/
structure Config where
  notes : List Note
  obstacles : List PRange
  leftHeight : ℤ
  rightHeight : ℤ
  leftOffsetTop : ℤ
  rightOffsetTop : ℤ
deriving DecidableEq, Repr

/-- Where each sidenote div currently lives: the left column, the right
column, or the hidden sidenote storage, each an ordered list of sidenote
indices (0-based, as in GW.sidenotes.sidenoteDivs). -/
structure Arrangement where
  colLeft : List Nat
  colRight : List Nat
  storage : List Nat
deriving DecidableEq, Repr

/-- Mutable state of the sidenote system between layout runs: the style.top
of every sidenote, the DOM arrangement, and whether the columns have been
revealed (style.visibility cleared, lines 555-556). -/
structure SNState where
  tops : List ℤ
  arr : Arrangement
  revealed : Bool
deriving DecidableEq, Repr

/-- GW.sidenotes.sidenoteSpacing (line 680). -/
def sidenoteSpacing : ℤ := 60

/-- Out-of-range accesses return this inert note (never hit on real indices). -/
def defaultNote : Note := ⟨0, 0, false⟩

def noteAt (cfg : Config) (i : Nat) : Note := cfg.notes.getD i defaultNote

def heightAt (cfg : Config) (i : Nat) : ℤ := (noteAt cfg i).height

def collapsedAt (cfg : Config) (i : Nat) : Bool := (noteAt cfg i).collapsed

/-- The column for the sidenote with 0-based index i, as computed by
updateSidenotesInCollapseBlocks and both passes of updateSidenotePositions:
(i % 2) ? sidenoteColumnLeft : sidenoteColumnRight (lines 193, 349, 395). -/
def updateSide (i : Nat) : Side := if i % 2 == 1 then Side.left else Side.right

/-- The column chosen at construction time (constructSidenotes line 599):
the same expression (i % 2) ? sidenoteColumnLeft : sidenoteColumnRight. -/
def constructSide (i : Nat) : Side := if i % 2 == 1 then Side.left else Side.right

def sideHeight (cfg : Config) : Side → ℤ
  | Side.left => cfg.leftHeight
  | Side.right => cfg.rightHeight

def sideOffsetTop (cfg : Config) : Side → ℤ
  | Side.left => cfg.leftOffsetTop
  | Side.right => cfg.rightOffsetTop

/-- The full proscribed-range list of a run: the collected obstacles plus
the bottom sentinel at the right column's clientHeight (lines 376-379). -/
def proscribedVerticalRanges (cfg : Config) : List PRange :=
  cfg.obstacles ++ [⟨cfg.rightHeight, cfg.rightHeight⟩]

/-! DOM-list helpers. -/

/-- Detach index i (an element is removed from its old parent when moved). -/
def removeIdx (i : Nat) (l : List Nat) : List Nat := l.filter (fun j => j ≠ i)

/-- insertBefore x target: x goes immediately before the first occurrence of
target.  (In the source target is always a child of the list; the append
fallback is never reached on such inputs.) -/
def insertBeforeIdx (x target : Nat) : List Nat → List Nat
  | [] => [x]
  | y :: ys => if y = target then x :: y :: ys else y :: insertBeforeIdx x target ys

def detach (i : Nat) (a : Arrangement) : Arrangement :=
  ⟨removeIdx i a.colLeft, removeIdx i a.colRight, removeIdx i a.storage⟩

def getCol (a : Arrangement) : Side → List Nat
  | Side.left => a.colLeft
  | Side.right => a.colRight

def setCol (a : Arrangement) : Side → List Nat → Arrangement
  | Side.left, col => { a with colLeft := col }
  | Side.right, col => { a with colRight := col }

/-- nextElementSibling: the element after the first occurrence of i. -/
def nextInCol : List Nat → Nat → Option Nat
  | [], _ => none
  | x :: xs, i => if x = i then xs.head? else nextInCol xs i

/-- previousElementSibling: the element before the first occurrence of i. -/
def prevInColAux (p : Nat) : List Nat → Nat → Option Nat
  | [], _ => none
  | x :: xs, i => if x = i then some p else prevInColAux x xs i

def prevInCol (l : List Nat) (i : Nat) : Option Nat :=
  match l with
  | [] => none
  | x :: xs => if x = i then none else prevInColAux x xs i

/-- The while loop of updateSidenotesInCollapseBlocks (lines 195-198):
starting from k, step by 2 while the index is in range and its sidenote is
currently in the hidden storage.  The structural fuel argument only bounds
the recursion depth; n + 1 steps always suffice because the index grows by
2 and the loop requires it to stay below n. -/
def nextSidenoteIndexAux (storage : List Nat) (n : Nat) : Nat → Nat → Nat
  | 0, k => k
  | fuel + 1, k =>
    if k < n ∧ k ∈ storage then nextSidenoteIndexAux storage n fuel (k + 2) else k

def nextSidenoteIndex (storage : List Nat) (n : Nat) (k : Nat) : Nat :=
  nextSidenoteIndexAux storage n (n + 1) k

/-- One iteration of updateSidenotesInCollapseBlocks (lines 181-209) for
sidenote i: a collapsed sidenote is moved (appendChild) to the hidden
storage; a displayed one is moved into its parity column, before the next
displayed sidenote of that column, or appended if none follows. -/
def collapseStep (cfg : Config) (a : Arrangement) (i : Nat) : Arrangement :=
  if collapsedAt cfg i then
    let a' := detach i a
    { a' with storage := a'.storage ++ [i] }
  else
    let side := updateSide i
    let nx := nextSidenoteIndex a.storage cfg.notes.length (i + 2)
    let a' := detach i a
    if cfg.notes.length ≤ nx then
      setCol a' side (getCol a' side ++ [i])
    else
      setCol a' side (insertBeforeIdx i nx (getCol a' side))

/-- updateSidenotesInCollapseBlocks (lines 178-210): the loop body above,
run for i = 0 .. n-1.  Only DOM positions change; style.top does not. -/
def updateSidenotesInCollapseBlocks (cfg : Config) (a : Arrangement) : Arrangement :=
  (List.range cfg.notes.length).foldl (collapseStep cfg) a

/-- The default (anchor-aligned) position of line 352:
Math.round((fnref.rect.top - side.rect.top) + 4); Math.round is the
identity on the integral coordinates embedded here. -/
def defaultTop (cfg : Config) (i : Nat) : ℤ := (noteAt cfg i).anchorOffset + 4

/-- The initial-layout pass (lines 339-358): every sidenote not in the
hidden storage has its style.top set to the anchor-aligned default. -/
def initTops (cfg : Config) (a : Arrangement) (tops : List ℤ) : List ℤ :=
  (List.range cfg.notes.length).foldl
    (fun ts i => if i ∈ a.storage then ts else ts.set i (defaultTop cfg i)) tops

/-- Twice the halfwayPoint of a proscribed range after conversion to
column-local coordinates (lines 416-419 shift top and bottom by
-side.offsetTop and halve their sum; the halved value is only ever compared
with the halved footprint midpoint, so we carry both doubled). -/
def rangeHalfwayTwice (r : PRange) (off : ℤ) : ℤ := (r.top - off) + (r.bottom - off)

/-- The rangeCountingUp half of the scan of lines 414-433: walk the range
list in index order, and each range whose halfway point is above the
sidenote's footprint midpoint overwrites room.ceiling with its (column-local)
bottom.  The final value is therefore from the last such range in list
order.  room.ceiling starts at 0 (line 401). -/
def scanCeiling (ranges : List PRange) (off mid2 : ℤ) : ℤ :=
  ranges.foldl
    (fun ceil r => if rangeHalfwayTwice r off < mid2 then r.bottom - off else ceil) 0

/-- The rangeCountingDown half of the same scan: walk the range list in
reverse index order, and each range whose halfway point is below the
footprint midpoint overwrites room.floor with its (column-local) top and
nextProscribedRangeAfterSidenote with its index.  The final value is from
the last assignment, i.e. the first such range in list order.  room.floor
starts at side.clientHeight (line 402), the recorded index at -1 (none). -/
def scanFloor (ranges : List PRange) (off mid2 floor0 : ℤ) : ℤ × Option Nat :=
  (ranges.enum.reverse).foldl
    (fun acc kr =>
      if rangeHalfwayTwice kr.2 off > mid2 then (kr.2.top - off, some kr.1) else acc)
    (floor0, none)

/-- Result of processing one sidenote in the correction loop: advance to the
next index with the given tops; retry the same index (the source decrements
i and continues); give up on overflow (lines 444-447, a plain return); or
hit the JavaScript TypeError of dereferencing proscribedVerticalRanges[-1]
(lines 524, 538 when nextProscribedRangeAfterSidenote is -1). -/
inductive StepRes
  | advance (tops : List ℤ)
  | retry (tops : List ℤ)
  | overflowAbort
  | errorAbort
deriving DecidableEq, Repr

/-- The body of the overlap-correction loop (lines 385-552) for a displayed
sidenote i (the hidden-storage skip is handled by the loop driver). -/
def stepSidenote (cfg : Config) (a : Arrangement) (i : Nat) (tops : List ℤ) : StepRes :=
  let side := updateSide i
  let col := getCol a side
  let nextSidenote := nextInCol col i
  let off := sideOffsetTop cfg side
  let ranges := proscribedVerticalRanges cfg
  let topI := tops.getD i 0
  let h := heightAt cfg i
  let fpTop := topI - sidenoteSpacing
  let fpBottom := topI + h + sidenoteSpacing
  let mid2 := fpTop + fpBottom
  let ceiling := scanCeiling ranges off mid2
  let fl := scanFloor ranges off mid2 (sideHeight cfg side)
  let floor := fl.1
  let nextPR := fl.2
  if fpBottom - fpTop > floor - ceiling then
    -- the sidenote cannot fit in its room (lines 437-455)
    match nextPR with
    | none => StepRes.overflowAbort
    | some k =>
        StepRes.retry (tops.set i ((ranges.getD k ⟨0, 0⟩).bottom + sidenoteSpacing))
  else
    -- ceiling clamp (lines 465-472)
    let owc := ceiling - fpTop
    let topI1 := if 0 < owc then topI + owc else topI
    let fpTop1 := if 0 < owc then fpTop + owc else fpTop
    let fpBottom1 := if 0 < owc then fpBottom + owc else fpBottom
    let tops1 := if 0 < owc then tops.set i topI1 else tops
    -- floor / next-sidenote overlap (lines 475-497)
    let owf := fpBottom1 - floor
    let own : ℤ :=
      match nextSidenote with
      | some j => fpBottom1 - tops1.getD j 0
      | none => -1
    let ob := max own owf
    if ob ≤ 0 then StepRes.advance tops1
    else
      -- upward resolution (lines 499-551)
      let prev := prevInCol col i
      let maxHead := fpTop1 - ceiling
      let head : ℤ :=
        match prev with
        | some p => min maxHead (fpTop1 - (tops1.getD p 0 + heightAt cfg p))
        | none => maxHead
      if head ≥ ob then StepRes.advance (tops1.set i (topI1 - ob))
      else if head < owf then
        match nextPR with
        | none => StepRes.errorAbort
        | some k =>
            StepRes.retry (tops1.set i ((ranges.getD k ⟨0, 0⟩).bottom + sidenoteSpacing))
      else
        match nextSidenote, nextPR with
        | some j, some k =>
            if fpBottom1 + heightAt cfg j + sidenoteSpacing - head > (ranges.getD k ⟨0, 0⟩).top
            then StepRes.advance tops1
            else
              let tops2 := tops1.set i (topI1 - head)
              StepRes.advance (tops2.set j (tops2.getD j 0 + (own - head)))
        | _, _ => StepRes.errorAbort

/-- Outcome of a run of updateSidenotePositions: the source signals overflow
by returning before the reveal (line 446), success by reaching the reveal
(lines 554-556), and a JavaScript exception by the TypeErrors noted above.
fuelOut is the model's marker for exhausting the recursion budget; the
termination theorem shows it is never produced at the budget used. -/
inductive Outcome
  | success
  | overflow
  | jsError
  | fuelOut
deriving DecidableEq, Repr

/-- The correction loop driver (line 385): i walks 0 .. n-1, skipping
sidenotes in the hidden storage; a retry re-enters the same index (i--;
continue in the source). -/
def loopGo (cfg : Config) (a : Arrangement) : Nat → Nat → List ℤ → List ℤ × Outcome
  | 0, _, tops => (tops, Outcome.fuelOut)
  | fuel + 1, i, tops =>
    if cfg.notes.length ≤ i then (tops, Outcome.success)
    else if i ∈ a.storage then loopGo cfg a fuel (i + 1) tops
    else
      match stepSidenote cfg a i tops with
      | StepRes.advance tops' => loopGo cfg a fuel (i + 1) tops'
      | StepRes.retry tops' => loopGo cfg a fuel i tops'
      | StepRes.overflowAbort => (tops, Outcome.overflow)
      | StepRes.errorAbort => (tops, Outcome.jsError)

/-- Recursion budget for the correction loop; the termination theorem shows
it always suffices: the loop index only moves forward, and between forward
moves each retry relocates the sidenote to a strictly larger member of the
finite set of obstacle-bottom targets. -/
def runFuel (cfg : Config) : Nat :=
  (cfg.notes.length + 1) * ((proscribedVerticalRanges cfg).length + 1)

/-- updateSidenotePositions (lines 304-557): reclassify collapse-block
sidenotes, run the initial layout pass, run the correction loop, and reveal
the columns only when the loop completes. -/
def updateSidenotePositions (cfg : Config) (s : SNState) : SNState × Outcome :=
  let a := updateSidenotesInCollapseBlocks cfg s.arr
  let tops1 := initTops cfg a s.tops
  let r := loopGo cfg a (runFuel cfg) 0 tops1
  (⟨r.1, a, if r.2 = Outcome.success then true else s.revealed⟩, r.2)

/-! Canonical arrangements and validity. -/

def allNodes (a : Arrangement) : List Nat := a.colLeft ++ a.colRight ++ a.storage

/-- A DOM arrangement reachable in the real system: every sidenote occurs
exactly once among the two columns and the storage, each column holds only
sidenotes of its parity, and each column is ordered by index. -/
def ValidArrangement (n : Nat) (a : Arrangement) : Prop :=
  (allNodes a).Nodup ∧
  (∀ j ∈ allNodes a, j < n) ∧
  (∀ j, j < n → j ∈ allNodes a) ∧
  (∀ j ∈ a.colLeft, updateSide j = Side.left) ∧
  (∀ j ∈ a.colRight, updateSide j = Side.right) ∧
  a.colLeft.Pairwise (· < ·) ∧
  a.colRight.Pairwise (· < ·)

instance (n : Nat) (a : Arrangement) : Decidable (ValidArrangement n a) := by
  unfold ValidArrangement
  exact inferInstance

/-- The column contents produced by a reclassification pass: the displayed
sidenotes of one side, in index order. -/
def canonCol (cfg : Config) (side : Side) : List Nat :=
  (List.range cfg.notes.length).filter
    (fun i => !(collapsedAt cfg i) && (updateSide i == side))

/-- The storage contents produced by a reclassification pass: the collapsed
sidenotes, in index order. -/
def canonStorage (cfg : Config) : List Nat :=
  (List.range cfg.notes.length).filter (fun i => collapsedAt cfg i)

def canonArrangement (cfg : Config) : Arrangement :=
  ⟨canonCol cfg Side.left, canonCol cfg Side.right, canonStorage cfg⟩

/-! Reference formulations of the room scan, for comparison with the code. -/

/-- Modelled from the spec: the room computation is said to set room.ceiling
to the bottom of the nearest obstacle whose own midpoint lies above the
sidenote's footprint midpoint (nearest meaning the obstacle midpoint closest
to the footprint midpoint, i.e. the greatest such midpoint), 0 if there is
none. -/
def specNearestCeiling (ranges : List PRange) (off mid2 : ℤ) : ℤ :=
  match (ranges.filter (fun r => rangeHalfwayTwice r off < mid2)).foldl
      (fun acc r =>
        match acc with
        | none => some r
        | some b => if rangeHalfwayTwice b off < rangeHalfwayTwice r off then some r else some b)
      none with
  | some r => r.bottom - off
  | none => 0

/-- What the code's ceiling scan actually computes: the column-local bottom
of the last range in list order whose halfway point is above mid, 0 if none. -/
def lastAboveBottom (ranges : List PRange) (off mid2 : ℤ) : ℤ :=
  match (ranges.filter (fun r => rangeHalfwayTwice r off < mid2)).getLast? with
  | some r => r.bottom - off
  | none => 0

/-- What the code's floor scan actually records: the first range in list
order (with its index) whose halfway point is below mid. -/
def firstBelow (ranges : List PRange) (off mid2 : ℤ) : Option (Nat × PRange) :=
  ranges.enum.find? (fun kr => rangeHalfwayTwice kr.2 off > mid2)

/-! Termination measure for the correction loop. -/

/-- The relocation targets still strictly below a given top offset: every
retry rewrites style.top to some range's bottom plus the spacing, strictly
below the previous value, so this count strictly decreases on each retry. -/
def reloCount (cfg : Config) (t : ℤ) : Nat :=
  (proscribedVerticalRanges cfg).countP (fun r => decide (t < r.bottom + sidenoteSpacing))

/-- Combined loop measure: forward moves of the loop index dominate, and
between forward moves each retry consumes one relocation target. -/
def loopMeasure (cfg : Config) (i : Nat) (tops : List ℤ) : Nat :=
  (cfg.notes.length - i) * ((proscribedVerticalRanges cfg).length + 1) +
    reloCount cfg (tops.getD i 0)

/-! Concrete configurations used in the theorems below. -/

/-- Three visible sidenotes; indices 0 and 2 share the right column (anchor
defaults 60 and 200, heights 180 and 40), with one obstacle at [300, 300]. -/
def cfgOverlap : Config :=
  ⟨[⟨56, 180, false⟩, ⟨56, 10, false⟩, ⟨196, 40, false⟩], [⟨300, 300⟩], 10000, 10000, 0, 0⟩

def stOverlap : SNState := ⟨[0, 0, 0], ⟨[1], [0, 2], []⟩, false⟩

/-- Scenario B of the spec: a single sidenote of height 300 in a column of
total height 200, with no obstacle besides the bottom sentinel. -/
def cfgScenarioB : Config := ⟨[⟨0, 300, false⟩], [], 200, 200, 0, 0⟩

def stScenarioB : SNState := ⟨[0], ⟨[], [0], []⟩, false⟩

/-- An overflowing right column (as in Scenario B) next to a healthy left
column; the previous layout had tops [0, 999]. -/
def cfgAbort : Config := ⟨[⟨0, 300, false⟩, ⟨0, 50, false⟩], [], 10000, 200, 0, 0⟩

def stAbort : SNState := ⟨[0, 999], ⟨[1], [0], []⟩, false⟩

/-- A single sidenote whose anchor offset is negative. -/
def cfgNegAnchor : Config := ⟨[⟨-100, 50, false⟩], [], 1000, 1000, 0, 0⟩

def arrNegAnchor : Arrangement := ⟨[], [0], []⟩

/-- A single visible sidenote with symbolic anchor, height and column
height, and no collected obstacles. -/
def oneNoteConfig (a h H : ℤ) : Config := ⟨[⟨a, h, false⟩], [], H, H, 0, 0⟩

def oneNoteState (t : ℤ) : SNState := ⟨[t], ⟨[], [0], []⟩, false⟩

/-- Five sidenotes of which numbers 2 and 5 (indices 1 and 4) sit in
collapsed blocks; the previous run had all of them displayed. -/
def cfgCollapse : Config :=
  ⟨[⟨10, 20, false⟩, ⟨30, 20, true⟩, ⟨50, 20, false⟩, ⟨70, 20, false⟩, ⟨90, 20, true⟩],
   [], 1000, 1000, 0, 0⟩

def stCollapse : SNState := ⟨[1, 2, 3, 4, 5], ⟨[1, 3], [0, 2, 4], []⟩, false⟩

/-! Helper lemmas. -/

theorem getD_set_self (l : List ℤ) (i : Nat) (v d : ℤ) (h : i < l.length) :
    (l.set i v).getD i d = v := by
  simp [List.getD_eq_getElem?_getD, List.getElem?_set_self h]

theorem getD_set_ne (l : List ℤ) (i j : Nat) (v d : ℤ) (h : i ≠ j) :
    (l.set i v).getD j d = l.getD j d := by
  simp [List.getD_eq_getElem?_getD, List.getElem?_set_ne h]

theorem scanCeilingAux (off mid2 : ℤ) :
    ∀ (l : List PRange) (c : ℤ),
      l.foldl (fun ceil r => if rangeHalfwayTwice r off < mid2 then r.bottom - off else ceil) c =
        (((l.filter (fun r => rangeHalfwayTwice r off < mid2)).getLast?).map
          (fun r => r.bottom - off)).getD c := by
  intro l
  induction l with
  | nil => intro c; rfl
  | cons r rs ih =>
    intro c
    by_cases h : rangeHalfwayTwice r off < mid2
    · rw [List.foldl_cons, if_pos h, ih, List.filter_cons_of_pos (by simpa using h)]
      cases hfil : rs.filter (fun r => rangeHalfwayTwice r off < mid2) with
      | nil => rfl
      | cons y ys =>
        rw [List.getLast?_cons_cons]
        cases hl : (y :: ys).getLast? with
        | none => rw [List.getLast?_eq_none_iff] at hl; exact absurd hl (by simp)
        | some z => rfl
    · rw [List.foldl_cons, if_neg h, ih, List.filter_cons_of_neg (by simpa using h)]

theorem scanCeiling_eq (ranges : List PRange) (off mid2 : ℤ) :
    scanCeiling ranges off mid2 = lastAboveBottom ranges off mid2 := by
  unfold scanCeiling lastAboveBottom
  rw [scanCeilingAux off mid2 ranges 0]
  cases (ranges.filter (fun r => rangeHalfwayTwice r off < mid2)).getLast? <;> rfl

theorem scanFloorAux (off mid2 : ℤ) :
    ∀ (l : List (Nat × PRange)) (c : ℤ × Option Nat),
      l.foldr
        (fun kr acc =>
          if rangeHalfwayTwice kr.2 off > mid2 then (kr.2.top - off, some kr.1) else acc) c =
        ((l.find? (fun kr => rangeHalfwayTwice kr.2 off > mid2)).map
          (fun kr => (kr.2.top - off, some kr.1))).getD c := by
  intro l
  induction l with
  | nil => intro c; rfl
  | cons x xs ih =>
    intro c
    by_cases h : rangeHalfwayTwice x.2 off > mid2
    · rw [List.foldr_cons, if_pos h, List.find?_cons_of_pos _ (by simpa using h)]
      rfl
    · rw [List.foldr_cons, if_neg h, List.find?_cons_of_neg _ (by simpa using h), ih]

theorem scanFloor_eq (ranges : List PRange) (off mid2 floor0 : ℤ) :
    scanFloor ranges off mid2 floor0 =
      ((firstBelow ranges off mid2).map
        (fun kr => (kr.2.top - off, some kr.1))).getD (floor0, none) := by
  unfold scanFloor firstBelow
  rw [List.foldl_reverse]
  exact scanFloorAux off mid2 ranges.enum (floor0, none)

theorem scanFloor_some {ranges : List PRange} {off mid2 floor0 f : ℤ} {k : Nat}
    (h : scanFloor ranges off mid2 floor0 = (f, some k)) :
    ∃ r, ranges[k]? = some r ∧ mid2 < rangeHalfwayTwice r off ∧ f = r.top - off := by
  rw [scanFloor_eq] at h
  cases hfb : firstBelow ranges off mid2 with
  | none => rw [hfb] at h; simp at h
  | some kr =>
    rw [hfb] at h
    obtain ⟨k', r⟩ := kr
    simp only [Option.map_some', Option.getD_some, Prod.mk.injEq, Option.some.injEq] at h
    obtain ⟨h1, h2⟩ := h
    subst h2
    have hp := List.find?_some hfb
    have hm := List.mem_of_find?_eq_some hfb
    rw [List.mk_mem_enum_iff_getElem?] at hm
    exact ⟨r, hm, by simpa using hp, h1.symm⟩

/-! Claim C3: column assignment by index parity.

The spec claims odd (1-based) index goes to the Left column.  The code
computes (i % 2) ? Left : Right on the 0-based index i at construction
(line 599) and at every reinsertion (line 193), so the 1-based odd indices
(0-based even) go to the Right column.  The code's own comment agrees:
"Odd - right; even - left." -/

/-- Counterexample to C3 as stated: the first sidenote (1-based index 1,
odd) is assigned to the Right column both at construction time and by the
reinsertion pass, not to the Left column claimed by the spec. -/
theorem firstSidenoteGoesRight :
    constructSide 0 = Side.right ∧ updateSide 0 = Side.right ∧
      Side.right ≠ Side.left := by
  refine ⟨rfl, rfl, by decide⟩

/-- C3 amended: construction and reinsertion use the same parity rule, and
that rule sends odd 1-based indices to the Right column and even 1-based
indices to the Left column. -/
theorem columnParityAssignment :
    ∀ i : Nat, constructSide i = updateSide i ∧
      updateSide i = (if (i + 1) % 2 = 1 then Side.right else Side.left) := by
  intro i
  refine ⟨rfl, ?_⟩
  unfold updateSide
  rcases Nat.mod_two_eq_zero_or_one i with h | h <;>
    simp [h, Nat.add_mod, Nat.beq_eq_true_eq]

/-! Claim C5: the room scan and the "nearest obstacle" description.

The obstacle list is in document order, not sorted; the ascending scan
overwrites room.ceiling at every range whose midpoint is above, so the
last such range in list order wins, which need not be the nearest. -/

/-- Counterexample to C5 as stated: with ranges [100,110] then [0,10] and a
footprint midpoint of 200 (doubled: 400), both range midpoints (105 and 5)
lie above; the nearest obstacle above is [100,110], so the spec's rule gives
ceiling 110, but the scan returns 10, the bottom of the last range in list
order. -/
theorem roomScanNotNearest :
    scanCeiling [⟨100, 110⟩, ⟨0, 10⟩] 0 400 = 10 ∧
      specNearestCeiling [⟨100, 110⟩, ⟨0, 10⟩] 0 400 = 110 ∧
      scanCeiling [⟨100, 110⟩, ⟨0, 10⟩] 0 400 ≠
        specNearestCeiling [⟨100, 110⟩, ⟨0, 10⟩] 0 400 := by
  refine ⟨by decide, by decide, by decide⟩

/-- C5 amended: room.ceiling is the column-local bottom of the last range
in list order whose halfway point is above the footprint midpoint (0 if
none), and room.floor / nextProscribedRangeAfterSidenote come from the
first range in list order whose halfway point is below it (defaulting to
the column height and none).  Only for a list sorted by midpoint do these
coincide with the nearest ranges. -/
theorem roomScanFirstLast :
    ∀ (ranges : List PRange) (off mid2 floor0 : ℤ),
      scanCeiling ranges off mid2 = lastAboveBottom ranges off mid2 ∧
      scanFloor ranges off mid2 floor0 =
        ((firstBelow ranges off mid2).map
          (fun kr => (kr.2.top - off, some kr.1))).getD (floor0, none) := by
  intro ranges off mid2 floor0
  exact ⟨scanCeiling_eq ranges off mid2, scanFloor_eq ranges off mid2 floor0⟩

/-! Claim C1: the no-overlap and no-obstacle-intersection invariant.

The invariant fails on the code.  In cfgOverlap, sidenote 1 (index 0) has
footprint [0, 300] fitting exactly against the obstacle [300, 300]; it
overlaps sidenote 3 (index 2, same column) by 100, has no headroom, and the
engine takes the leave-it-alone branch of lines 537-539 because sidenote 3
would not fit under the obstacle; but when sidenote 3 is then processed,
its own room is clear (its midpoint is above the obstacle's), it overlaps
nothing below, and the loop never re-checks the overlap with its
predecessor.  The run completes successfully, reveals the columns, and
leaves the two sidenotes visually overlapping by 40 pixels. -/

/-- C1 fails in the code: the run on cfgOverlap succeeds and reveals the
columns, yet right-column sidenotes 0 and 2 (index order 0 < 2) end with
sidenote 0's box
[60, 60+180] overlapping sidenote 2's top 200 - a violation of the claimed
invariant on an input the engine accepts as successful. -/
theorem overlapAfterSuccessfulRun :
    (updateSidenotePositions cfgOverlap stOverlap).2 = Outcome.success ∧
    ((updateSidenotePositions cfgOverlap stOverlap).1).revealed = true ∧
    updateSide 0 = updateSide 2 ∧
    ((updateSidenotePositions cfgOverlap stOverlap).1).tops.getD 2 0 <
      ((updateSidenotePositions cfgOverlap stOverlap).1).tops.getD 0 0 +
        heightAt cfgOverlap 0 := by
  refine ⟨by decide, by decide, by decide, by decide⟩

/-! Claim C2: what happens on overflow.

The source signals overflow with a plain return from the whole function
(line 446): the single interleaved loop over both columns stops, so the
other column's remaining sidenotes are not processed either, and every
position already written during this run (the anchor-default initialization
pass and any corrections made before the abort) stays in place; nothing is
restored to the previous layout. -/

/-- Counterexample to C2 as stated: on cfgAbort the right column overflows;
afterwards the overflowing sidenote holds the relocated position 260 written
during the aborted run (not its previous 0), and the left-column sidenote
holds the freshly initialized default 4 (not its previous 999), so the
aborted run did apply partial results and did not preserve the previous
valid layout. -/
theorem overflowKeepsPartialResults :
    (updateSidenotePositions cfgAbort stAbort).2 = Outcome.overflow ∧
    ((updateSidenotePositions cfgAbort stAbort).1).tops = [260, 4] ∧
    stAbort.tops = [0, 999] ∧
    ((updateSidenotePositions cfgAbort stAbort).1).tops ≠ stAbort.tops := by
  refine ⟨by decide, by decide, by decide, by decide⟩

/-- C2 amended: when the engine reports overflow the entire run aborts (both
columns): the columns are not revealed (visibility unchanged), and the
sidenotes keep whatever positions the aborted run has already written - the
anchor-default initialization and any earlier corrections - rather than the
previous layout's values. -/
theorem overflowAbortsWholeRun :
    (∀ cfg s, (updateSidenotePositions cfg s).2 = Outcome.overflow →
      ((updateSidenotePositions cfg s).1).revealed = s.revealed) ∧
    (updateSidenotePositions cfgAbort stAbort).2 = Outcome.overflow ∧
    ((updateSidenotePositions cfgAbort stAbort).1).tops.getD 0 0 =
      cfgAbort.rightHeight + sidenoteSpacing ∧
    ((updateSidenotePositions cfgAbort stAbort).1).tops.getD 1 0 = defaultTop cfgAbort 1 := by
  refine ⟨?_, by decide, by decide, by decide⟩
  intro cfg s h
  simp only [updateSidenotePositions] at h ⊢
  rw [h]
  simp

theorem overflowAbortsWholeRunWitness :
    ((updateSidenotePositions cfgAbort stAbort).1).revealed = stAbort.revealed :=
  overflowAbortsWholeRun.1 cfgAbort stAbort (by decide)

/-! Claim C4: anchor-aligned initialization.

Line 352 sets style.top to Math.round((fnref.rect.top - side.rect.top) + 4)
with no clamping of any kind: the value is the anchor offset plus 4, and it
can be negative.  The monotonic-anchoring half of the claim does hold once
the default is restated: a sidenote constrained by nothing ends the run at
its default position. -/

/-- Counterexample to C4 as stated: with an anchor offset of -100 the
initialization pass writes -96, which is neither the anchor offset itself
nor clamped to be nonnegative. -/
theorem initTops_get? (cfg : Config) (a : Arrangement) :
    ∀ (l : List Nat) (tops : List ℤ) (j : Nat),
      (l.foldl
        (fun ts i => if i ∈ a.storage then ts else ts.set i (defaultTop cfg i)) tops).get? j =
        if j ∈ l ∧ j ∉ a.storage then (tops.get? j).map (fun _ => defaultTop cfg j)
        else tops.get? j := by
  intro l
  induction l with
  | nil => intro tops j; simp
  | cons x xs ih =>
    intro tops j
    rw [List.foldl_cons, ih]
    by_cases hx : x ∈ a.storage
    · rw [if_pos hx]
      by_cases hj : j ∈ a.storage
      · simp [hj]
      · by_cases hxs : j ∈ xs
        · simp [hxs, hj]
        · by_cases hxj : j = x
          · subst hxj; exact absurd hx hj
          · simp [hxs, hj, hxj]
    · rw [if_neg hx]
      by_cases hxj : x = j
      · subst hxj
        rw [List.get?_set_eq]
        by_cases hxs : x ∈ xs
        · simp only [hxs, hx, not_false_eq_true, and_true, if_true, List.mem_cons,
            true_or, or_true]
          cases tops.get? x <;> rfl
        · simp only [hxs, hx, not_false_eq_true, and_true, if_false, false_and,
            List.mem_cons, true_or, if_true]
          cases tops.get? x <;> rfl
      · rw [List.get?_set_ne _ _ hxj]
        have hjx : j ≠ x := fun he => hxj he.symm
        by_cases hj : j ∈ a.storage
        · simp [hj]
        · by_cases hxs : j ∈ xs
          · simp [hxs, hj]
          · simp [hxs, hj, hjx]

theorem initTops_displayed (cfg : Config) (a : Arrangement) (tops : List ℤ) (i : Nat)
    (hi : i < cfg.notes.length) (hst : i ∉ a.storage) (hlen : i < tops.length) :
    (initTops cfg a tops).getD i 0 = defaultTop cfg i := by
  unfold initTops
  rw [List.getD_eq_getElem?_getD, ← List.get?_eq_getElem?, initTops_get?]
  rw [if_pos ⟨List.mem_range.mpr hi, hst⟩]
  cases hg : tops.get? i with
  | none => exact absurd (List.get?_eq_none.mp hg) (by omega)
  | some v => rfl

theorem defaultTopNotClamped :
    (initTops cfgNegAnchor arrNegAnchor [0]).getD 0 0 = -96 ∧
    ((-96 : ℤ) < 0) ∧
    ((-96 : ℤ) ≠ (noteAt cfgNegAnchor 0).anchorOffset) := by
  refine ⟨by decide, by decide, by decide⟩

theorem oneNoteStep (a h H : ℤ) (h0 : 0 ≤ h) (h1 : 60 ≤ a + 4) (h2 : a + 4 + h + 60 ≤ H) :
    stepSidenote (oneNoteConfig a h H) ⟨[], [0], []⟩ 0 [a + 4] =
      StepRes.advance [a + 4] := by
  simp [stepSidenote, oneNoteConfig, updateSide, getCol, nextInCol, sideOffsetTop,
    sideHeight, proscribedVerticalRanges, scanCeiling, scanFloor, rangeHalfwayTwice,
    sidenoteSpacing, prevInCol, heightAt, noteAt, List.enum]
  have c1 : a + 4 + (a + 4 + h) < H + H := by linarith
  have c2 : ¬(H + H < a + 4 + (a + 4 + h)) := by linarith
  have c4 : ¬(a + 4 - 60 < (0 : ℤ)) := by linarith
  simp only [if_pos c1, if_neg c2, if_neg c4]
  have c5 : ¬(H - 0 < a + 4 + h + 60 - (a + 4 - 60)) := by linarith
  simp only [if_neg c5, if_pos h2]

/-- C4 amended: the initialization pass sets every displayed sidenote's top
to its anchor offset plus 4 (Math.round of an integral value), with no
clamping; and when nothing constrains the sidenote (no collected obstacle,
no neighbor, room to sit at its default), its final position after a full
successful run is exactly that default. -/
theorem anchorDefaultInitialization :
    (∀ cfg a tops i, i < cfg.notes.length → i ∉ a.storage → i < tops.length →
      (initTops cfg a tops).getD i 0 = (noteAt cfg i).anchorOffset + 4) ∧
    (∀ a h H t, 0 ≤ h → 60 ≤ a + 4 → a + 4 + h + 60 ≤ H →
      (updateSidenotePositions (oneNoteConfig a h H) (oneNoteState t)).1.tops = [a + 4] ∧
      (updateSidenotePositions (oneNoteConfig a h H) (oneNoteState t)).2 = Outcome.success) := by
  constructor
  · intro cfg a tops i hi hst hlen
    exact initTops_displayed cfg a tops i hi hst hlen
  · intro a h H t h0 h1 h2
    have hstep := oneNoteStep a h H h0 h1 h2
    have harr : updateSidenotesInCollapseBlocks (oneNoteConfig a h H) (oneNoteState t).arr =
        (⟨[], [0], []⟩ : Arrangement) := rfl
    have hinit : initTops (oneNoteConfig a h H) ⟨[], [0], []⟩ (oneNoteState t).tops = [a + 4] := rfl
    have hfuel : runFuel (oneNoteConfig a h H) = 4 := rfl
    have hloop : loopGo (oneNoteConfig a h H) ⟨[], [0], []⟩ 4 0 [a + 4] =
        ([a + 4], Outcome.success) := by
      simp only [show (4 : Nat) = 3 + 1 from rfl, loopGo, hstep]
      norm_num [oneNoteConfig]
    refine ⟨?_, ?_⟩ <;> simp only [updateSidenotePositions, harr, hinit, hfuel, hloop]

theorem anchorDefaultInitializationWitness :
    (initTops cfgCollapse (canonArrangement cfgCollapse) stCollapse.tops).getD 0 0 =
      (noteAt cfgCollapse 0).anchorOffset + 4 ∧
    (updateSidenotePositions (oneNoteConfig 60 30 1000) (oneNoteState 5)).1.tops = [60 + 4] :=
  ⟨anchorDefaultInitialization.1 cfgCollapse (canonArrangement cfgCollapse) stCollapse.tops 0
      (by decide) (by decide) (by decide),
   (anchorDefaultInitialization.2 60 30 1000 5 (by decide) (by decide) (by decide)).1⟩

/-! Claim C7: the columns are revealed only after a successful run.

Lines 554-556 clear the columns' visibility only after the correction loop
has finished; the overflow return of line 446 (and any thrown TypeError)
skips them, leaving visibility as it was. -/

/-- C7: a run sets revealed exactly when it succeeds (an unsuccessful run
leaves the reveal state untouched), and on Scenario B (one sidenote of
height 300 in a column of height 200, bottom sentinel only) the run ends in
overflow with the column still unrevealed. -/
theorem columnsRevealedOnlyOnSuccess :
    (∀ cfg s, ((updateSidenotePositions cfg s).2 = Outcome.success →
        ((updateSidenotePositions cfg s).1).revealed = true) ∧
      ((updateSidenotePositions cfg s).2 ≠ Outcome.success →
        ((updateSidenotePositions cfg s).1).revealed = s.revealed)) ∧
    (updateSidenotePositions cfgScenarioB stScenarioB).2 = Outcome.overflow ∧
    ((updateSidenotePositions cfgScenarioB stScenarioB).1).revealed = false := by
  refine ⟨?_, by decide, by decide⟩
  intro cfg s
  constructor
  · intro h
    simp only [updateSidenotePositions] at h ⊢
    rw [h]
    simp
  · intro h
    simp only [updateSidenotePositions] at h ⊢
    rw [if_neg h]

theorem columnsRevealedOnlyOnSuccessWitness :
    ((updateSidenotePositions cfgScenarioB stScenarioB).1).revealed = stScenarioB.revealed :=
  (columnsRevealedOnlyOnSuccess.1 cfgScenarioB stScenarioB).2 (by decide)

/-! Claim C10: a layout run never moves a hidden sidenote.

The initialization pass (line 345) and the correction pass (line 392) both
skip sidenotes whose parent is the hidden storage, and every position the
correction pass writes goes to the sidenote being processed or to its
nextElementSibling inside a column, never to a storage child. -/

theorem collapsedAt_lt (cfg : Config) (i : Nat) (h : collapsedAt cfg i = true) :
    i < cfg.notes.length := by
  by_contra hn
  push_neg at hn
  unfold collapsedAt noteAt at h
  rw [List.getD_eq_getElem?_getD, List.getElem?_eq_none (by omega)] at h
  simp [defaultNote] at h

theorem mem_insertBeforeIdx (x target j : Nat) :
    ∀ l : List Nat, j ∈ insertBeforeIdx x target l ↔ j = x ∨ j ∈ l := by
  intro l
  induction l with
  | nil => simp [insertBeforeIdx]
  | cons y ys ih =>
    unfold insertBeforeIdx
    by_cases hy : y = target
    · rw [if_pos hy]; simp [List.mem_cons]
    · rw [if_neg hy]; simp [List.mem_cons, ih]; tauto

theorem collapseStep_self (cfg : Config) (a : Arrangement) (i : Nat)
    (h : collapsedAt cfg i = true) :
    i ∈ (collapseStep cfg a i).storage ∧
    i ∉ (collapseStep cfg a i).colLeft ∧ i ∉ (collapseStep cfg a i).colRight := by
  unfold collapseStep
  rw [if_pos h]
  refine ⟨List.mem_append_right _ (by simp), ?_, ?_⟩ <;>
    simp [detach, removeIdx, List.mem_filter]

theorem collapseStep_pres (cfg : Config) (a : Arrangement) (i k : Nat) (hk : k ≠ i)
    (h : i ∈ a.storage ∧ i ∉ a.colLeft ∧ i ∉ a.colRight) :
    i ∈ (collapseStep cfg a k).storage ∧
    i ∉ (collapseStep cfg a k).colLeft ∧ i ∉ (collapseStep cfg a k).colRight := by
  obtain ⟨h1, h2, h3⟩ := h
  have hik : i ≠ k := fun he => hk he.symm
  have hdet : i ∈ (detach k a).storage ∧ i ∉ (detach k a).colLeft ∧
      i ∉ (detach k a).colRight := by
    refine ⟨?_, ?_, ?_⟩ <;> simp [detach, removeIdx, List.mem_filter, h1, h2, h3, hik]
  obtain ⟨d1, d2, d3⟩ := hdet
  unfold collapseStep
  by_cases hc : collapsedAt cfg k
  · rw [if_pos hc]
    exact ⟨List.mem_append_left _ d1, d2, d3⟩
  · rw [if_neg hc]
    by_cases hnx : cfg.notes.length ≤ nextSidenoteIndex a.storage cfg.notes.length (k + 2)
    · rw [if_pos hnx]
      cases hside : updateSide k <;>
        simp_all [setCol, getCol, List.mem_append, hik]
    · rw [if_neg hnx]
      cases hside : updateSide k <;>
        simp_all [setCol, getCol, mem_insertBeforeIdx, hik]

theorem collapseUpdate_collapsed_mem (cfg : Config) (i : Nat)
    (h : collapsedAt cfg i = true) :
    ∀ a : Arrangement,
      i ∈ (updateSidenotesInCollapseBlocks cfg a).storage ∧
      i ∉ (updateSidenotesInCollapseBlocks cfg a).colLeft ∧
      i ∉ (updateSidenotesInCollapseBlocks cfg a).colRight := by
  intro a
  have hi := collapsedAt_lt cfg i h
  unfold updateSidenotesInCollapseBlocks
  have key : ∀ n, i < n →
      i ∈ ((List.range n).foldl (collapseStep cfg) a).storage ∧
      i ∉ ((List.range n).foldl (collapseStep cfg) a).colLeft ∧
      i ∉ ((List.range n).foldl (collapseStep cfg) a).colRight := by
    intro n
    induction n with
    | zero => omega
    | succ m ih =>
      intro hm
      rw [List.range_succ, List.foldl_append, List.foldl_cons, List.foldl_nil]
      by_cases him : i = m
      · subst him
        exact collapseStep_self cfg _ i h
      · exact collapseStep_pres cfg _ i m (fun he => him he.symm) (ih (by omega))
  exact key cfg.notes.length hi

theorem nextInCol_mem : ∀ (l : List Nat) (i j : Nat), nextInCol l i = some j → j ∈ l := by
  intro l
  induction l with
  | nil => intro i j h; cases h
  | cons x xs ih =>
    intro i j h
    unfold nextInCol at h
    by_cases hx : x = i
    · rw [if_pos hx] at h
      cases xs with
      | nil => cases h
      | cons y ys =>
        simp only [List.head?_cons, Option.some.injEq] at h
        subst h
        exact List.mem_cons_of_mem _ (List.mem_cons_self _ _)
    · rw [if_neg hx] at h
      exact List.mem_cons_of_mem _ (ih i j h)

set_option maxHeartbeats 2000000 in
theorem stepSidenote_frame (cfg : Config) (a : Arrangement) (i : Nat) (tops : List ℤ)
    (j : Nat) (hij : i ≠ j)
    (hcol : ∀ k, nextInCol (getCol a (updateSide i)) i = some k → k ≠ j) :
    ∀ tops', (stepSidenote cfg a i tops = StepRes.advance tops' ∨
              stepSidenote cfg a i tops = StepRes.retry tops') →
      tops'.get? j = tops.get? j := by
  have hset : ∀ (l : List ℤ) (v : ℤ), (l.set i v).get? j = l.get? j :=
    fun l v => List.get?_set_ne _ _ hij
  have hsetk : ∀ (l : List ℤ) (v : ℤ) (k : Nat),
      nextInCol (getCol a (updateSide i)) i = some k → (l.set k v).get? j = l.get? j :=
    fun l v k hk => List.get?_set_ne _ _ (hcol k hk)
  intro tops' h
  simp only [stepSidenote] at h
  rcases h with h | h <;>
  · repeat' split at h
    all_goals cases h
    all_goals try rw [hsetk _ _ _ (by assumption)]
    all_goals simp only [hset]

theorem loopGo_frame (cfg : Config) (a : Arrangement) (j : Nat)
    (hst : j ∈ a.storage) (hcl : j ∉ a.colLeft) (hcr : j ∉ a.colRight) :
    ∀ (fuel i : Nat) (tops : List ℤ),
      ((loopGo cfg a fuel i tops).1).get? j = tops.get? j := by
  intro fuel
  induction fuel with
  | zero => intro i tops; rfl
  | succ m ih =>
    intro i tops
    rw [loopGo]
    by_cases hn : cfg.notes.length ≤ i
    · rw [if_pos hn]
    · rw [if_neg hn]
      by_cases hm : i ∈ a.storage
      · rw [if_pos hm]; exact ih (i + 1) tops
      · rw [if_neg hm]
        have hij : i ≠ j := fun he => hm (he ▸ hst)
        have hcolj : ∀ k, nextInCol (getCol a (updateSide i)) i = some k → k ≠ j := by
          intro k hk he
          subst he
          have := nextInCol_mem _ _ _ hk
          cases hside : updateSide i <;> rw [hside] at this <;> simp [getCol] at this
          · exact hcl this
          · exact hcr this
        cases hstep : stepSidenote cfg a i tops with
        | advance tops' =>
          rw [ih (i + 1) tops', stepSidenote_frame cfg a i tops j hij hcolj tops' (Or.inl hstep)]
        | retry tops' =>
          rw [ih i tops', stepSidenote_frame cfg a i tops j hij hcolj tops' (Or.inr hstep)]
        | overflowAbort => rfl
        | errorAbort => rfl

/-- C10: for every run and every sidenote whose anchor is inside a
currently-collapsed block (hence sitting in the hidden storage after the
reclassification step), its stored style.top after the run equals its value
before: both the initialization pass and the correction pass skip storage
children, and no write of the correction pass targets one. -/
theorem hiddenSidenotesUntouched (cfg : Config) (s : SNState) (i : Nat)
    (h : collapsedAt cfg i = true) :
    ((updateSidenotePositions cfg s).1).tops.get? i = s.tops.get? i := by
  obtain ⟨hst, hcl, hcr⟩ := collapseUpdate_collapsed_mem cfg i h s.arr
  simp only [updateSidenotePositions]
  rw [loopGo_frame cfg _ i hst hcl hcr]
  unfold initTops
  rw [initTops_get?]
  rw [if_neg (fun hc => hc.2 hst)]

theorem hiddenSidenotesUntouchedWitness :
    ((updateSidenotePositions cfgCollapse stCollapse).1).tops.get? 1 = stCollapse.tops.get? 1 :=
  hiddenSidenotesUntouched cfgCollapse stCollapse 1 (by decide)

/-! Claim C9: the reclassification pass and column order.

Support lemmas: a characterization of the next-displayed-sidenote while
loop, and list bookkeeping for detach/insertBefore. -/

theorem nextSidenoteIndexAux_spec (st : List Nat) (n : Nat) :
    ∀ (fuel k : Nat), n ≤ k + 2 * fuel →
      ∃ m, nextSidenoteIndexAux st n fuel k = k + 2 * m ∧
        ¬(k + 2 * m < n ∧ k + 2 * m ∈ st) ∧
        ∀ m' < m, k + 2 * m' < n ∧ k + 2 * m' ∈ st := by
  intro fuel
  induction fuel with
  | zero =>
    intro k hk
    refine ⟨0, rfl, ?_, fun m' hm' => absurd hm' (Nat.not_lt_zero m')⟩
    rintro ⟨h1, _⟩
    omega
  | succ f ih =>
    intro k hk
    unfold nextSidenoteIndexAux
    by_cases hc : k < n ∧ k ∈ st
    · rw [if_pos hc]
      obtain ⟨m, hm, hstop, hall⟩ := ih (k + 2) (by omega)
      refine ⟨m + 1, ?_, ?_, ?_⟩
      · rw [hm]; omega
      · have he : k + 2 * (m + 1) = k + 2 + 2 * m := by omega
        rw [he]; exact hstop
      · intro m' hm'
        cases m' with
        | zero => simpa using hc
        | succ m'' =>
          have h2 := hall m'' (by omega)
          have he : k + 2 * (m'' + 1) = k + 2 + 2 * m'' := by omega
          rw [he]; exact h2
    · rw [if_neg hc]
      exact ⟨0, by omega, by simpa using hc, fun m' hm' => absurd hm' (Nat.not_lt_zero m')⟩

theorem nextSidenoteIndex_spec (st : List Nat) (n k : Nat) :
    ∃ m, nextSidenoteIndex st n k = k + 2 * m ∧
      ¬(k + 2 * m < n ∧ k + 2 * m ∈ st) ∧
      ∀ m' < m, k + 2 * m' < n ∧ k + 2 * m' ∈ st :=
  nextSidenoteIndexAux_spec st n (n + 1) k (by omega)

theorem updateSide_parity (j k : Nat) (h : j % 2 = k % 2) : updateSide j = updateSide k := by
  unfold updateSide
  rw [h]

theorem updateSide_mod (j k : Nat) (h : updateSide j = updateSide k) : j % 2 = k % 2 := by
  unfold updateSide at h
  rcases Nat.mod_two_eq_zero_or_one j with hj | hj <;>
    rcases Nat.mod_two_eq_zero_or_one k with hk | hk <;>
      simp [hj, hk] at h ⊢

theorem removeIdx_append (i : Nat) (l1 l2 : List Nat) :
    removeIdx i (l1 ++ l2) = removeIdx i l1 ++ removeIdx i l2 :=
  List.filter_append l1 l2

theorem removeIdx_range_filter (k : Nat) (p : Nat → Bool) :
    removeIdx k ((List.range k).filter p) = (List.range k).filter p := by
  apply List.filter_eq_self.mpr
  intro x hx
  have hxk := List.mem_range.mp (List.mem_filter.mp hx).1
  simp
  omega

theorem removeIdx_filter_ge (k : Nat) (l : List Nat) :
    removeIdx k (l.filter (fun j => k ≤ j)) = l.filter (fun j => k + 1 ≤ j) := by
  unfold removeIdx
  rw [List.filter_filter]
  exact List.filter_congr (fun x _ => by
    rw [Bool.eq_iff_iff]
    simp only [Bool.and_eq_true, decide_eq_true_eq, ne_eq]
    omega)

theorem insertBeforeIdx_append (x c : Nat) (t : List Nat) :
    ∀ A : List Nat, c ∉ A → insertBeforeIdx x c (A ++ c :: t) = A ++ x :: c :: t := by
  intro A
  induction A with
  | nil =>
    intro _
    simp only [List.nil_append]
    unfold insertBeforeIdx
    rw [if_pos rfl]
  | cons a as ih =>
    intro hc
    simp only [List.cons_append]
    unfold insertBeforeIdx
    rw [if_neg (fun he => hc (by rw [he]; exact List.mem_cons_self _ _))]
    rw [ih (fun hm => hc (List.mem_cons_of_mem _ hm))]

theorem nextIdx_det (st0 ISk : List Nat) (n k : Nat) (colS : List Nat)
    (hmemIS : ∀ j, k < j → (j ∈ ISk ↔ j ∈ st0))
    (hpar : ∀ j ∈ colS, j % 2 = k % 2)
    (hcolst : ∀ j ∈ colS, j ∉ st0)
    (hltS : ∀ j ∈ colS, j < n)
    (hsort : colS.Pairwise (· < ·))
    (hcompl : ∀ j, j < n → j % 2 = k % 2 → k < j → j ∉ st0 → j ∈ colS) :
    (colS.filter (fun j => k + 1 ≤ j) = [] → n ≤ nextSidenoteIndex ISk n (k + 2)) ∧
    (∀ c t, colS.filter (fun j => k + 1 ≤ j) = c :: t →
      nextSidenoteIndex ISk n (k + 2) = c) := by
  obtain ⟨m, hnx, hstop, hall⟩ := nextSidenoteIndex_spec ISk n (k + 2)
  have hrpar : (k + 2 + 2 * m) % 2 = k % 2 := by omega
  have hrgt : k < k + 2 + 2 * m := by omega
  constructor
  · intro hfil
    rw [hnx]
    by_contra hlt2
    push_neg at hlt2
    have hr1 : k + 2 + 2 * m ∉ ISk := fun hm => hstop ⟨hlt2, hm⟩
    have hr2 : k + 2 + 2 * m ∉ st0 := fun hm => hr1 ((hmemIS _ hrgt).mpr hm)
    have hr3 := hcompl _ hlt2 hrpar hrgt hr2
    have : k + 2 + 2 * m ∈ colS.filter (fun j => k + 1 ≤ j) :=
      List.mem_filter.mpr ⟨hr3, by simp; omega⟩
    rw [hfil] at this
    exact absurd this (List.not_mem_nil _)
  · intro c t hfil
    have hcmem : c ∈ colS ∧ k + 1 ≤ c := by
      have := List.mem_filter.mp (hfil ▸ List.mem_cons_self c t)
      exact ⟨this.1, by simpa using this.2⟩
    have hcpar : c % 2 = k % 2 := hpar c hcmem.1
    have hcge : k + 2 ≤ c := by omega
    have hcn : c < n := hltS c hcmem.1
    have hcst : c ∉ st0 := hcolst c hcmem.1
    obtain ⟨mc, hmc⟩ : ∃ mc, c = k + 2 + 2 * mc := ⟨(c - k - 2) / 2, by omega⟩
    have hmlec : m ≤ mc := by
      by_contra hgt
      push_neg at hgt
      have := (hall mc hgt).2
      rw [← hmc] at this
      exact hcst ((hmemIS c (by omega)).mp this)
    have hnlt : ¬(k + 2 + 2 * m < c) := by
      intro hlt2
      have hrn : k + 2 + 2 * m < n := by omega
      have hr1 : k + 2 + 2 * m ∉ ISk := fun hm => hstop ⟨hrn, hm⟩
      have hr2 : k + 2 + 2 * m ∉ st0 := fun hm => hr1 ((hmemIS _ hrgt).mpr hm)
      have hr3 := hcompl _ hrn hrpar hrgt hr2
      have hrf : k + 2 + 2 * m ∈ colS.filter (fun j => k + 1 ≤ j) :=
        List.mem_filter.mpr ⟨hr3, by simp; omega⟩
      rw [hfil] at hrf
      rcases List.mem_cons.mp hrf with he | hmem
      · omega
      · have hsf : (colS.filter (fun j => k + 1 ≤ j)).Pairwise (· < ·) :=
          List.Pairwise.sublist (List.filter_sublist colS) hsort
        rw [hfil] at hsf
        have := (List.pairwise_cons.mp hsf).1 _ hmem
        omega
    rw [hnx]
    omega

set_option maxHeartbeats 2000000 in
theorem collapseUpdate_canonical (cfg : Config) (a : Arrangement)
    (hv : ValidArrangement cfg.notes.length a) :
    updateSidenotesInCollapseBlocks cfg a = canonArrangement cfg := by
  obtain ⟨hnd, hlt, hcomp, hLpar, hRpar, hsL, hsR⟩ := hv
  unfold allNodes at hnd hlt hcomp
  rw [List.nodup_append] at hnd
  obtain ⟨hndLR, hndS, hdisjS⟩ := hnd
  have hLS : ∀ j ∈ a.colLeft, j ∉ a.storage := fun j hj hs =>
    hdisjS (List.mem_append_left _ hj) hs
  have hRS : ∀ j ∈ a.colRight, j ∉ a.storage := fun j hj hs =>
    hdisjS (List.mem_append_right _ hj) hs
  have hltL : ∀ j ∈ a.colLeft, j < cfg.notes.length := fun j hj =>
    hlt j (List.mem_append_left _ (List.mem_append_left _ hj))
  have hltR : ∀ j ∈ a.colRight, j < cfg.notes.length := fun j hj =>
    hlt j (List.mem_append_left _ (List.mem_append_right _ hj))
  have hsideOf1 : ∀ j : Nat, j % 2 = 1 → updateSide j = Side.left := fun j hp => by
    unfold updateSide; simp [hp]
  have hsideOf0 : ∀ j : Nat, j % 2 = 0 → updateSide j = Side.right := fun j hp => by
    unfold updateSide; simp [hp]
  have hcomplL : ∀ j, j < cfg.notes.length → j % 2 = 1 → j ∉ a.storage → j ∈ a.colLeft := by
    intro j hj hp hs
    rcases List.mem_append.mp (hcomp j hj) with h | h
    · rcases List.mem_append.mp h with h | h
      · exact h
      · have hjr := hRpar j h
        rw [hsideOf1 j hp] at hjr
        exact Side.noConfusion hjr
    · exact absurd h hs
  have hcomplR : ∀ j, j < cfg.notes.length → j % 2 = 0 → j ∉ a.storage → j ∈ a.colRight := by
    intro j hj hp hs
    rcases List.mem_append.mp (hcomp j hj) with h | h
    · rcases List.mem_append.mp h with h | h
      · have hjl := hLpar j h
        rw [hsideOf0 j hp] at hjl
        exact Side.noConfusion hjl
      · exact h
    · exact absurd h hs
  have key : ∀ k, k ≤ cfg.notes.length →
      (List.range k).foldl (collapseStep cfg) a =
        ⟨(List.range k).filter (fun i => !(collapsedAt cfg i) && (updateSide i == Side.left)) ++
            a.colLeft.filter (fun j => k ≤ j),
         (List.range k).filter (fun i => !(collapsedAt cfg i) && (updateSide i == Side.right)) ++
            a.colRight.filter (fun j => k ≤ j),
         a.storage.filter (fun j => k ≤ j) ++
            (List.range k).filter (fun i => collapsedAt cfg i)⟩ := by
    intro k
    induction k with
    | zero =>
      intro _
      have e1 : a.colLeft.filter (fun j => 0 ≤ j) = a.colLeft :=
        List.filter_eq_self.mpr (fun x _ => by simp)
      have e2 : a.colRight.filter (fun j => 0 ≤ j) = a.colRight :=
        List.filter_eq_self.mpr (fun x _ => by simp)
      have e3 : a.storage.filter (fun j => 0 ≤ j) = a.storage :=
        List.filter_eq_self.mpr (fun x _ => by simp)
      simp only [List.range_zero, List.foldl_nil, List.filter_nil, List.nil_append,
        List.append_nil, e1, e2, e3]
    | succ k ih =>
      intro hk1
      rw [List.range_succ, List.foldl_append, List.foldl_cons, List.foldl_nil, ih (by omega)]
      simp only [collapseStep, detach, getCol, setCol]
      by_cases hck : collapsedAt cfg k = true
      · rw [if_pos hck]
        have hkL : List.filter (fun i => !(collapsedAt cfg i) && (updateSide i == Side.left))
            [k] = [] := by simp [hck]
        have hkR : List.filter (fun i => !(collapsedAt cfg i) && (updateSide i == Side.right))
            [k] = [] := by simp [hck]
        have hkC : List.filter (fun i => collapsedAt cfg i) [k] = [k] := by simp [hck]
        simp only [Arrangement.mk.injEq]
        refine ⟨?_, ?_, ?_⟩
        · rw [removeIdx_append, removeIdx_range_filter, removeIdx_filter_ge,
            List.filter_append, hkL, List.append_nil]
        · rw [removeIdx_append, removeIdx_range_filter, removeIdx_filter_ge,
            List.filter_append, hkR, List.append_nil]
        · rw [removeIdx_append, removeIdx_range_filter, removeIdx_filter_ge,
            List.append_assoc, List.filter_append, hkC]
      · rw [if_neg hck]
        have hckf : collapsedAt cfg k = false := by
          cases hcc : collapsedAt cfg k
          · rfl
          · exact absurd hcc hck
        have hmemIS : ∀ j, k < j →
            (j ∈ a.storage.filter (fun j => k ≤ j) ++
                (List.range k).filter (fun i => collapsedAt cfg i) ↔ j ∈ a.storage) := by
          intro j hj
          constructor
          · intro hm
            rcases List.mem_append.mp hm with h | h
            · exact (List.mem_filter.mp h).1
            · have := List.mem_range.mp (List.mem_filter.mp h).1
              omega
          · intro hm
            exact List.mem_append_left _ (List.mem_filter.mpr ⟨hm, by simp; omega⟩)
        have hstC : a.storage.filter (fun j => k ≤ j) ++
            (List.range k).filter (fun i => collapsedAt cfg i) =
            a.storage.filter (fun j => k ≤ j) ++
            (List.range (k)).filter (fun i => collapsedAt cfg i) := rfl
        cases hside : updateSide k with
        | left =>
          have hkpar : k % 2 = 1 := by
            have := updateSide_mod k 1 (by rw [hside]; rfl)
            omega
          have hparL : ∀ j ∈ a.colLeft, j % 2 = k % 2 := fun j hj => by
            have := updateSide_mod j k (by rw [hLpar j hj, hside])
            omega
          have hcomplLk : ∀ j, j < cfg.notes.length → j % 2 = k % 2 → k < j →
              j ∉ a.storage → j ∈ a.colLeft := fun j h1 h2 _ h4 =>
            hcomplL j h1 (by omega) h4
          obtain ⟨det1, det2⟩ := nextIdx_det a.storage _ cfg.notes.length k a.colLeft
            hmemIS hparL hLS hltL hsL hcomplLk
          have hkL : List.filter (fun i => !(collapsedAt cfg i) && (updateSide i == Side.left))
              [k] = [k] := by simp [hckf, hside]
          have hkR : List.filter (fun i => !(collapsedAt cfg i) && (updateSide i == Side.right))
              [k] = [] := by simp [hckf, hside]
          have hkC : List.filter (fun i => collapsedAt cfg i) [k] = [] := by simp [hckf]
          cases hfil : a.colLeft.filter (fun j => k + 1 ≤ j) with
          | nil =>
            rw [if_pos (det1 hfil)]
            simp only [Arrangement.mk.injEq]
            refine ⟨?_, ?_, ?_⟩
            · rw [removeIdx_append, removeIdx_range_filter, removeIdx_filter_ge, hfil,
                List.append_nil, List.filter_append, hkL, List.append_nil]
            · rw [removeIdx_append, removeIdx_range_filter, removeIdx_filter_ge,
                List.filter_append, hkR, List.append_nil]
            · rw [removeIdx_append, removeIdx_range_filter, removeIdx_filter_ge,
                List.filter_append, hkC, List.append_nil]
          | cons c t =>
            have hnxc := det2 c t hfil
            have hcn : c < cfg.notes.length :=
              hltL c (List.mem_filter.mp (hfil ▸ List.mem_cons_self c t)).1
            have hck1 : k + 1 ≤ c := by
              have := (List.mem_filter.mp (hfil ▸ List.mem_cons_self c t)).2
              simpa using this
            rw [hnxc, if_neg (by omega)]
            simp only [Arrangement.mk.injEq]
            refine ⟨?_, ?_, ?_⟩
            · rw [removeIdx_append, removeIdx_range_filter, removeIdx_filter_ge, hfil,
                insertBeforeIdx_append k c t _
                  (fun hc => by
                    have := List.mem_range.mp (List.mem_filter.mp hc).1
                    omega),
                List.filter_append, hkL, List.append_assoc]
              rfl
            · rw [removeIdx_append, removeIdx_range_filter, removeIdx_filter_ge,
                List.filter_append, hkR, List.append_nil]
            · rw [removeIdx_append, removeIdx_range_filter, removeIdx_filter_ge,
                List.filter_append, hkC, List.append_nil]
        | right =>
          have hkpar : k % 2 = 0 := by
            have := updateSide_mod k 0 (by rw [hside]; rfl)
            omega
          have hparR : ∀ j ∈ a.colRight, j % 2 = k % 2 := fun j hj => by
            have := updateSide_mod j k (by rw [hRpar j hj, hside])
            omega
          have hcomplRk : ∀ j, j < cfg.notes.length → j % 2 = k % 2 → k < j →
              j ∉ a.storage → j ∈ a.colRight := fun j h1 h2 _ h4 =>
            hcomplR j h1 (by omega) h4
          obtain ⟨det1, det2⟩ := nextIdx_det a.storage _ cfg.notes.length k a.colRight
            hmemIS hparR hRS hltR hsR hcomplRk
          have hkL : List.filter (fun i => !(collapsedAt cfg i) && (updateSide i == Side.left))
              [k] = [] := by simp [hckf, hside]
          have hkR : List.filter (fun i => !(collapsedAt cfg i) && (updateSide i == Side.right))
              [k] = [k] := by simp [hckf, hside]
          have hkC : List.filter (fun i => collapsedAt cfg i) [k] = [] := by simp [hckf]
          cases hfil : a.colRight.filter (fun j => k + 1 ≤ j) with
          | nil =>
            rw [if_pos (det1 hfil)]
            simp only [Arrangement.mk.injEq]
            refine ⟨?_, ?_, ?_⟩
            · rw [removeIdx_append, removeIdx_range_filter, removeIdx_filter_ge,
                List.filter_append, hkL, List.append_nil]
            · rw [removeIdx_append, removeIdx_range_filter, removeIdx_filter_ge, hfil,
                List.append_nil, List.filter_append, hkR, List.append_nil]
            · rw [removeIdx_append, removeIdx_range_filter, removeIdx_filter_ge,
                List.filter_append, hkC, List.append_nil]
          | cons c t =>
            have hnxc := det2 c t hfil
            have hcn : c < cfg.notes.length :=
              hltR c (List.mem_filter.mp (hfil ▸ List.mem_cons_self c t)).1
            have hck1 : k + 1 ≤ c := by
              have := (List.mem_filter.mp (hfil ▸ List.mem_cons_self c t)).2
              simpa using this
            rw [hnxc, if_neg (by omega)]
            simp only [Arrangement.mk.injEq]
            refine ⟨?_, ?_, ?_⟩
            · rw [removeIdx_append, removeIdx_range_filter, removeIdx_filter_ge,
                List.filter_append, hkL, List.append_nil]
            · rw [removeIdx_append, removeIdx_range_filter, removeIdx_filter_ge, hfil,
                insertBeforeIdx_append k c t _
                  (fun hc => by
                    have := List.mem_range.mp (List.mem_filter.mp hc).1
                    omega),
                List.filter_append, hkR, List.append_assoc]
              rfl
            · rw [removeIdx_append, removeIdx_range_filter, removeIdx_filter_ge,
                List.filter_append, hkC, List.append_nil]
  have hfin := key cfg.notes.length (le_refl _)
  unfold updateSidenotesInCollapseBlocks canonArrangement canonCol canonStorage
  rw [hfin]
  have eL : a.colLeft.filter (fun j => cfg.notes.length ≤ j) = [] :=
    List.filter_eq_nil_iff.mpr (fun j hj => by
      have := hltL j hj
      simp
      omega)
  have eR : a.colRight.filter (fun j => cfg.notes.length ≤ j) = [] :=
    List.filter_eq_nil_iff.mpr (fun j hj => by
      have := hltR j hj
      simp
      omega)
  have eS : a.storage.filter (fun j => cfg.notes.length ≤ j) = [] :=
    List.filter_eq_nil_iff.mpr (fun j hj => by
      have := hlt j (List.mem_append_right _ hj)
      simp
      omega)
  rw [eL, eR, eS, List.append_nil, List.append_nil, List.nil_append]


/-- C9: after the visibility reclassification pass
(updateSidenotesInCollapseBlocks), starting from any valid DOM arrangement,
every sidenote whose anchor sits in a collapsed block is in the hidden
storage, every visible sidenote is in its parity column, and each column
lists its sidenotes in increasing index order (equivalently, each insertion
lands immediately before the next displayed sidenote of the same column, or
at the end when none follows). -/
theorem collapseReclassificationOrder (cfg : Config) (a : Arrangement)
    (hv : ValidArrangement cfg.notes.length a) :
    (∀ i, i < cfg.notes.length →
      ((i ∈ (updateSidenotesInCollapseBlocks cfg a).storage ↔ collapsedAt cfg i = true) ∧
       (i ∈ (updateSidenotesInCollapseBlocks cfg a).colLeft ↔
         (collapsedAt cfg i = false ∧ updateSide i = Side.left)) ∧
       (i ∈ (updateSidenotesInCollapseBlocks cfg a).colRight ↔
         (collapsedAt cfg i = false ∧ updateSide i = Side.right)))) ∧
    ((updateSidenotesInCollapseBlocks cfg a).colLeft.Pairwise (· < ·) ∧
     (updateSidenotesInCollapseBlocks cfg a).colRight.Pairwise (· < ·)) := by
  rw [collapseUpdate_canonical cfg a hv]
  refine ⟨?_, ?_, ?_⟩
  · intro i hi
    refine ⟨?_, ?_, ?_⟩
    · simp [canonArrangement, canonStorage, List.mem_filter, List.mem_range, hi]
    · simp [canonArrangement, canonCol, List.mem_filter, List.mem_range, hi,
        Bool.and_eq_true, Bool.not_eq_true', beq_iff_eq]
    · simp [canonArrangement, canonCol, List.mem_filter, List.mem_range, hi,
        Bool.and_eq_true, Bool.not_eq_true', beq_iff_eq]
  · exact List.Pairwise.sublist (List.filter_sublist _) (List.pairwise_lt_range _)
  · exact List.Pairwise.sublist (List.filter_sublist _) (List.pairwise_lt_range _)

theorem collapseReclassificationOrderWitness :
    ValidArrangement cfgCollapse.notes.length stCollapse.arr ∧
    (1 ∈ (updateSidenotesInCollapseBlocks cfgCollapse stCollapse.arr).storage ↔
      collapsedAt cfgCollapse 1 = true) :=
  ⟨by decide, ((collapseReclassificationOrder cfgCollapse stCollapse.arr
      (by decide)).1 1 (by decide)).1⟩


/-! Claim C8: idempotence of the layout run.

Support lemmas: the canonical arrangement is itself valid, every pass
preserves the length of the tops list, and re-running the initial layout
pass after a correction loop reproduces the same starting tops. -/

theorem canonArrangement_valid (cfg : Config) :
    ValidArrangement cfg.notes.length (canonArrangement cfg) := by
  have hnd := List.nodup_range cfg.notes.length
  refine ⟨?_, ?_, ?_, ?_, ?_, ?_, ?_⟩
  · show ((canonCol cfg Side.left ++ canonCol cfg Side.right) ++ canonStorage cfg).Nodup
    unfold canonCol canonStorage
    rw [List.nodup_append, List.nodup_append]
    refine ⟨⟨hnd.filter _, hnd.filter _, ?_⟩, hnd.filter _, ?_⟩
    · intro x hx hx'
      have h1 := (List.mem_filter.mp hx).2
      have h2 := (List.mem_filter.mp hx').2
      simp only [Bool.and_eq_true, beq_iff_eq] at h1 h2
      rw [h1.2] at h2
      exact Side.noConfusion h2.2
    · intro x hx hx'
      have h2 := (List.mem_filter.mp hx').2
      rcases List.mem_append.mp hx with h | h <;>
      · have h1 := (List.mem_filter.mp h).2
        simp only [Bool.and_eq_true, Bool.not_eq_true'] at h1
        rw [h1.1] at h2
        exact Bool.noConfusion h2
  · intro j hj
    unfold allNodes canonArrangement canonCol canonStorage at hj
    rcases List.mem_append.mp hj with h | h
    · rcases List.mem_append.mp h with h | h <;>
        exact List.mem_range.mp (List.mem_filter.mp h).1
    · exact List.mem_range.mp (List.mem_filter.mp h).1
  · intro j hj
    unfold allNodes canonArrangement canonCol canonStorage
    by_cases hc : collapsedAt cfg j = true
    · exact List.mem_append_right _ (List.mem_filter.mpr ⟨List.mem_range.mpr hj, hc⟩)
    · have hcf : collapsedAt cfg j = false := by
        cases hcc : collapsedAt cfg j
        · rfl
        · exact absurd hcc hc
      apply List.mem_append_left
      cases hside : updateSide j
      · exact List.mem_append_left _ (List.mem_filter.mpr ⟨List.mem_range.mpr hj, by
          simp [hcf, hside]⟩)
      · exact List.mem_append_right _ (List.mem_filter.mpr ⟨List.mem_range.mpr hj, by
          simp [hcf, hside]⟩)
  · intro j hj
    have h := (List.mem_filter.mp hj).2
    simp only [Bool.and_eq_true, beq_iff_eq] at h
    exact h.2
  · intro j hj
    have h := (List.mem_filter.mp hj).2
    simp only [Bool.and_eq_true, beq_iff_eq] at h
    exact h.2
  · exact List.Pairwise.sublist (List.filter_sublist _) (List.pairwise_lt_range _)
  · exact List.Pairwise.sublist (List.filter_sublist _) (List.pairwise_lt_range _)

theorem initTops_length (cfg : Config) (a : Arrangement) :
    ∀ tops : List ℤ, (initTops cfg a tops).length = tops.length := by
  unfold initTops
  generalize List.range cfg.notes.length = l
  induction l with
  | nil => intro tops; rfl
  | cons x xs ih =>
    intro tops
    rw [List.foldl_cons]
    by_cases hx : x ∈ a.storage
    · rw [if_pos hx, ih]
    · rw [if_neg hx, ih, List.length_set]

set_option maxHeartbeats 2000000 in
theorem stepSidenote_length (cfg : Config) (a : Arrangement) (i : Nat) (tops : List ℤ) :
    ∀ tops', (stepSidenote cfg a i tops = StepRes.advance tops' ∨
              stepSidenote cfg a i tops = StepRes.retry tops') →
      tops'.length = tops.length := by
  intro tops' h
  simp only [stepSidenote] at h
  repeat' split at h
  all_goals rcases h with h | h
  all_goals cases h
  all_goals simp only [List.length_set]

theorem loopGo_length (cfg : Config) (a : Arrangement) :
    ∀ (fuel i : Nat) (tops : List ℤ),
      ((loopGo cfg a fuel i tops).1).length = tops.length := by
  intro fuel
  induction fuel with
  | zero => intro i tops; rfl
  | succ m ih =>
    intro i tops
    rw [loopGo]
    by_cases hn : cfg.notes.length ≤ i
    · rw [if_pos hn]
    · rw [if_neg hn]
      by_cases hm : i ∈ a.storage
      · rw [if_pos hm]; exact ih (i + 1) tops
      · rw [if_neg hm]
        cases hstep : stepSidenote cfg a i tops with
        | advance tops' =>
          rw [ih (i + 1) tops', stepSidenote_length cfg a i tops tops' (Or.inl hstep)]
        | retry tops' =>
          rw [ih i tops', stepSidenote_length cfg a i tops tops' (Or.inr hstep)]
        | overflowAbort => rfl
        | errorAbort => rfl

theorem initTops_pointwise (cfg : Config) (a : Arrangement) (ts : List ℤ) (j : Nat) :
    (initTops cfg a ts).get? j =
      if j ∈ List.range cfg.notes.length ∧ j ∉ a.storage
      then (ts.get? j).map (fun _ => defaultTop cfg j) else ts.get? j := by
  unfold initTops
  rw [initTops_get?]

theorem initTops_after_run (cfg : Config) (tops : List ℤ)
    (hlen : tops.length = cfg.notes.length) (fuel i : Nat) :
    initTops cfg (canonArrangement cfg)
        (loopGo cfg (canonArrangement cfg) fuel i
          (initTops cfg (canonArrangement cfg) tops)).1 =
      initTops cfg (canonArrangement cfg) tops := by
  apply List.ext_get?
  intro j
  rw [initTops_pointwise, initTops_pointwise]
  by_cases hj : j ∈ List.range cfg.notes.length ∧ j ∉ (canonArrangement cfg).storage
  · rw [if_pos hj, if_pos hj]
    cases hg1 : ((loopGo cfg (canonArrangement cfg) fuel i
        (initTops cfg (canonArrangement cfg) tops)).1).get? j with
    | none =>
      cases hg2 : tops.get? j with
      | none => rfl
      | some v =>
        exfalso
        have h1 := List.get?_eq_none.mp hg1
        obtain ⟨h2, -⟩ := List.get?_eq_some.mp hg2
        rw [loopGo_length, initTops_length] at h1
        omega
    | some w =>
      cases hg2 : tops.get? j with
      | none =>
        exfalso
        have h2 := List.get?_eq_none.mp hg2
        obtain ⟨h1, -⟩ := List.get?_eq_some.mp hg1
        rw [loopGo_length, initTops_length] at h1
        omega
      | some v => rfl
  · rw [if_neg hj, if_neg hj]
    push_neg at hj
    by_cases hjr : j ∈ List.range cfg.notes.length
    · have hst : j ∈ (canonArrangement cfg).storage := hj hjr
      have hstf := (List.mem_filter.mp hst).2
      have hcl : j ∉ (canonArrangement cfg).colLeft := fun hc => by
        have h2 := (List.mem_filter.mp hc).2
        simp only [Bool.and_eq_true, Bool.not_eq_true'] at h2
        rw [h2.1] at hstf
        exact Bool.noConfusion hstf
      have hcr : j ∉ (canonArrangement cfg).colRight := fun hc => by
        have h2 := (List.mem_filter.mp hc).2
        simp only [Bool.and_eq_true, Bool.not_eq_true'] at h2
        rw [h2.1] at hstf
        exact Bool.noConfusion hstf
      rw [loopGo_frame cfg _ j hst hcl hcr, initTops_pointwise]
      rw [if_neg (fun hc => hc.2 hst)]
    · have hjn : cfg.notes.length ≤ j := by
        simp only [List.mem_range, not_lt] at hjr
        exact hjr
      have e1 : tops.get? j = none := List.get?_eq_none.mpr (by omega)
      have e2 : ((loopGo cfg (canonArrangement cfg) fuel i
          (initTops cfg (canonArrangement cfg) tops)).1).get? j = none :=
        List.get?_eq_none.mpr (by rw [loopGo_length, initTops_length]; omega)
      rw [e1, e2]

/-- C8: running the layout engine twice in succession with unchanged
geometry and unchanged visibility classification is idempotent: starting
from a valid DOM arrangement with one recorded top per sidenote, the second
run of updateSidenotePositions returns exactly the first run output (same
currentTop for every sidenote, same arrangement, same revealed flag, same
outcome). -/
theorem layoutRunIdempotent (cfg : Config) (s : SNState)
    (hv : ValidArrangement cfg.notes.length s.arr)
    (hlen : s.tops.length = cfg.notes.length) :
    updateSidenotePositions cfg (updateSidenotePositions cfg s).1 =
      updateSidenotePositions cfg s := by
  have hA : updateSidenotesInCollapseBlocks cfg s.arr = canonArrangement cfg :=
    collapseUpdate_canonical cfg s.arr hv
  have hA2 : updateSidenotesInCollapseBlocks cfg (canonArrangement cfg) =
      canonArrangement cfg :=
    collapseUpdate_canonical cfg _ (canonArrangement_valid cfg)
  simp only [updateSidenotePositions, hA, hA2]
  rw [initTops_after_run cfg s.tops hlen (runFuel cfg) 0]
  by_cases ho : (loopGo cfg (canonArrangement cfg) (runFuel cfg) 0
      (initTops cfg (canonArrangement cfg) s.tops)).2 = Outcome.success
  · simp [ho]
  · simp [ho]

theorem layoutRunIdempotentWitness :
    (ValidArrangement cfgCollapse.notes.length stCollapse.arr ∧
      stCollapse.tops.length = cfgCollapse.notes.length) ∧
    updateSidenotePositions cfgCollapse (updateSidenotePositions cfgCollapse stCollapse).1 =
      updateSidenotePositions cfgCollapse stCollapse :=
  ⟨⟨by decide, by decide⟩,
    layoutRunIdempotent cfgCollapse stCollapse (by decide) (by decide)⟩


/-! Claim C6: termination of the correction loop.

Measure: loopMeasure strictly decreases on every iteration (skip, advance,
or retry); each retry moves the sidenote to an obstacle-bottom target
strictly past its current position, consuming one relocation target. -/

theorem countP_lt_of_peak {α : Type} (p q : α → Bool) :
    ∀ (l : List α) (k : Nat) (d : α), k < l.length →
      (∀ x ∈ l, p x = true → q x = true) →
      q (l.getD k d) = true → p (l.getD k d) = false →
      l.countP p < l.countP q := by
  intro l
  induction l with
  | nil =>
    intro k d hk
    exact absurd hk (Nat.not_lt_zero k)
  | cons x xs ih =>
    intro k d hk himp hq hp
    cases k with
    | zero =>
      rw [List.getD_cons_zero] at hq hp
      rw [List.countP_cons, List.countP_cons, if_pos hq, if_neg (by simp [hp])]
      have hmono : xs.countP p ≤ xs.countP q :=
        List.countP_mono_left (fun y hy => himp y (List.mem_cons_of_mem x hy))
      omega
    | succ m =>
      rw [List.getD_cons_succ] at hq hp
      have hm : m < xs.length := by
        simp only [List.length_cons] at hk
        omega
      have hrec := ih m d hm (fun y hy => himp y (List.mem_cons_of_mem x hy)) hq hp
      rw [List.countP_cons, List.countP_cons]
      have hx : (if p x = true then 1 else 0) ≤ (if q x = true then 1 else 0) := by
        by_cases hpx : p x = true
        · rw [if_pos hpx, if_pos (himp x (List.mem_cons_self x xs) hpx)]
        · rw [if_neg hpx]
          split
          · omega
          · omega
      omega

theorem reloCount_le (cfg : Config) (t : ℤ) :
    reloCount cfg t ≤ (proscribedVerticalRanges cfg).length :=
  List.countP_le_length _

theorem reloCount_relocate_lt (cfg : Config) (t : ℤ) (k : Nat) (r : PRange)
    (hrk : (proscribedVerticalRanges cfg)[k]? = some r) (hbt : t < r.bottom) :
    reloCount cfg (((proscribedVerticalRanges cfg).getD k ⟨0, 0⟩).bottom + sidenoteSpacing) <
      reloCount cfg t := by
  have hk : k < (proscribedVerticalRanges cfg).length := (List.getElem?_eq_some.mp hrk).1
  have hgd : (proscribedVerticalRanges cfg).getD k ⟨0, 0⟩ = r := by
    rw [List.getD_eq_getElem?_getD, hrk]
    rfl
  rw [hgd]
  unfold reloCount
  have hgd' : ∀ dr : PRange, (proscribedVerticalRanges cfg).getD k dr = r := fun dr => by
    rw [List.getD_eq_getElem?_getD, hrk]
    rfl
  apply countP_lt_of_peak _ _ _ k ⟨0, 0⟩ hk
  · intro x _ hx
    rw [decide_eq_true_eq] at hx
    rw [decide_eq_true_eq]
    have hspacing : (0 : ℤ) < sidenoteSpacing := by decide
    omega
  · rw [hgd', decide_eq_true_eq]
    have hspacing : (0 : ℤ) < sidenoteSpacing := by decide
    omega
  · rw [hgd']
    simp

theorem stepSidenote_retry_shape (cfg : Config) (a : Arrangement) (i : Nat)
    (tops tops' : List ℤ) (hi : i < tops.length)
    (h : stepSidenote cfg a i tops = StepRes.retry tops') :
    ∃ k, (scanFloor (proscribedVerticalRanges cfg) (sideOffsetTop cfg (updateSide i))
            (tops.getD i 0 - sidenoteSpacing +
              (tops.getD i 0 + heightAt cfg i + sidenoteSpacing))
            (sideHeight cfg (updateSide i))).2 = some k ∧
      tops'.getD i 0 =
        ((proscribedVerticalRanges cfg).getD k ⟨0, 0⟩).bottom + sidenoteSpacing := by
  simp only [stepSidenote] at h
  repeat' split at h
  all_goals cases h
  all_goals exact ⟨_, by assumption, getD_set_self _ _ _ _ (by simp [List.length_set, hi])⟩

theorem stepSidenote_retry_decreases (cfg : Config) (a : Arrangement) (i : Nat)
    (tops tops' : List ℤ)
    (htb : ∀ r ∈ proscribedVerticalRanges cfg, r.top ≤ r.bottom)
    (hh : 0 ≤ heightAt cfg i) (hoff : 0 ≤ sideOffsetTop cfg (updateSide i))
    (hi : i < tops.length)
    (h : stepSidenote cfg a i tops = StepRes.retry tops') :
    reloCount cfg (tops'.getD i 0) < reloCount cfg (tops.getD i 0) := by
  obtain ⟨k, hfl2, hval⟩ := stepSidenote_retry_shape cfg a i tops tops' hi h
  have hpair : scanFloor (proscribedVerticalRanges cfg) (sideOffsetTop cfg (updateSide i))
      (tops.getD i 0 - sidenoteSpacing + (tops.getD i 0 + heightAt cfg i + sidenoteSpacing))
      (sideHeight cfg (updateSide i)) =
      ((scanFloor (proscribedVerticalRanges cfg) (sideOffsetTop cfg (updateSide i))
          (tops.getD i 0 - sidenoteSpacing + (tops.getD i 0 + heightAt cfg i + sidenoteSpacing))
          (sideHeight cfg (updateSide i))).1, some k) := by
    rw [← hfl2]
  obtain ⟨r, hrk, hmid, -⟩ := scanFloor_some hpair
  have hrmem : r ∈ proscribedVerticalRanges cfg := List.getElem?_mem hrk
  have hrtb := htb r hrmem
  have hbt : tops.getD i 0 < r.bottom := by
    unfold rangeHalfwayTwice at hmid
    omega
  rw [hval]
  exact reloCount_relocate_lt cfg _ k r hrk hbt

theorem measure_step_lt (d R c c' : Nat) (hc' : c' ≤ R) :
    d * (R + 1) + c' < (d + 1) * (R + 1) + c := by
  have h1 : d * (R + 1) + c' < d * (R + 1) + (R + 1) :=
    Nat.add_lt_add_left (by omega) _
  have h2 : d * (R + 1) + (R + 1) = (d + 1) * (R + 1) := (Nat.succ_mul d (R + 1)).symm
  have h3 : (d + 1) * (R + 1) ≤ (d + 1) * (R + 1) + c := Nat.le_add_right _ _
  exact lt_of_lt_of_le (h2 ▸ h1) h3

theorem loopGo_no_fuelOut (cfg : Config) (a : Arrangement)
    (htb : ∀ r ∈ proscribedVerticalRanges cfg, r.top ≤ r.bottom)
    (hh : ∀ j : Nat, 0 ≤ heightAt cfg j)
    (hoff : ∀ s : Side, 0 ≤ sideOffsetTop cfg s) :
    ∀ (fuel i : Nat) (tops : List ℤ), tops.length = cfg.notes.length →
      loopMeasure cfg i tops < fuel →
      (loopGo cfg a fuel i tops).2 ≠ Outcome.fuelOut := by
  intro fuel
  induction fuel with
  | zero =>
    intro i tops _ hm
    exact absurd hm (Nat.not_lt_zero _)
  | succ m ih =>
    intro i tops hlen hm
    rw [loopGo]
    by_cases hn : cfg.notes.length ≤ i
    · rw [if_pos hn]
      simp
    · rw [if_neg hn]
      push_neg at hn
      have hd : cfg.notes.length - i = (cfg.notes.length - (i + 1)) + 1 := by omega
      by_cases hst : i ∈ a.storage
      · rw [if_pos hst]
        apply ih (i + 1) tops hlen
        have h1 : loopMeasure cfg (i + 1) tops < loopMeasure cfg i tops := by
          unfold loopMeasure
          rw [hd]
          exact measure_step_lt _ _ _ _ (reloCount_le cfg _)
        omega
      · rw [if_neg hst]
        cases hs : stepSidenote cfg a i tops with
        | advance tops' =>
          apply ih (i + 1) tops'
            (by rw [stepSidenote_length cfg a i tops tops' (Or.inl hs)]; exact hlen)
          have h1 : loopMeasure cfg (i + 1) tops' < loopMeasure cfg i tops := by
            unfold loopMeasure
            rw [hd]
            exact measure_step_lt _ _ _ _ (reloCount_le cfg _)
          omega
        | retry tops' =>
          apply ih i tops'
            (by rw [stepSidenote_length cfg a i tops tops' (Or.inr hs)]; exact hlen)
          have h1 : loopMeasure cfg i tops' < loopMeasure cfg i tops := by
            unfold loopMeasure
            exact Nat.add_lt_add_left
              (stepSidenote_retry_decreases cfg a i tops tops' htb (hh i)
                (hoff (updateSide i)) (by omega) hs) _
          omega
        | overflowAbort => simp
        | errorAbort => simp

/-- C6: the correction loop of updateSidenotePositions terminates on every
geometrically well-formed input (obstacle tops at or above their bottoms,
nonnegative sidenote heights and column offsets, one recorded top per
sidenote): the fuel budget (n + 1) * (R + 1) - the O(n * R) bound of one
relocation per obstacle per sidenote plus the forward moves - is never
exhausted, because every retry relocates the sidenote strictly past an
obstacle it overlapped, monotonically consuming the finite obstacle list. -/
theorem correctionLoopTerminates (cfg : Config) (s : SNState)
    (htb : ∀ r ∈ cfg.obstacles, r.top ≤ r.bottom)
    (hhn : ∀ nt ∈ cfg.notes, 0 ≤ nt.height)
    (hoffL : 0 ≤ cfg.leftOffsetTop) (hoffR : 0 ≤ cfg.rightOffsetTop)
    (hlen : s.tops.length = cfg.notes.length) :
    (updateSidenotePositions cfg s).2 ≠ Outcome.fuelOut := by
  have htb' : ∀ r ∈ proscribedVerticalRanges cfg, r.top ≤ r.bottom := by
    intro r hr
    unfold proscribedVerticalRanges at hr
    rcases List.mem_append.mp hr with h | h
    · exact htb r h
    · rw [List.mem_singleton] at h
      rw [h]
  have hh : ∀ j : Nat, 0 ≤ heightAt cfg j := by
    intro j
    unfold heightAt noteAt
    rw [List.getD_eq_getElem?_getD]
    cases hg : cfg.notes[j]? with
    | none => exact le_refl 0
    | some nt => exact hhn nt (List.getElem?_mem hg)
  have hoff : ∀ sd : Side, 0 ≤ sideOffsetTop cfg sd := by
    intro sd
    cases sd
    · exact hoffL
    · exact hoffR
  simp only [updateSidenotePositions]
  intro hcon
  apply loopGo_no_fuelOut cfg (updateSidenotesInCollapseBlocks cfg s.arr) htb' hh hoff
    (runFuel cfg) 0 (initTops cfg (updateSidenotesInCollapseBlocks cfg s.arr) s.tops)
    (by rw [initTops_length]; exact hlen) ?_ hcon
  unfold loopMeasure runFuel
  rw [Nat.sub_zero]
  exact measure_step_lt _ _ 0 _ (reloCount_le cfg _)

theorem correctionLoopTerminatesWitness :
    ((∀ r ∈ cfgOverlap.obstacles, r.top ≤ r.bottom) ∧
     (∀ nt ∈ cfgOverlap.notes, 0 ≤ nt.height) ∧
     0 ≤ cfgOverlap.leftOffsetTop ∧ 0 ≤ cfgOverlap.rightOffsetTop ∧
     stOverlap.tops.length = cfgOverlap.notes.length) ∧
    (updateSidenotePositions cfgOverlap stOverlap).2 ≠ Outcome.fuelOut :=
  ⟨⟨by decide, by decide, by decide, by decide, by decide⟩,
   correctionLoopTerminates cfgOverlap stOverlap (by decide) (by decide) (by decide)
     (by decide) (by decide)⟩

end Sidenotes
